import Mathlib

/-!
Verification of the tide-calendar pipeline (`streamlit_app.py`, `main.py`).

The embedding models timestamps as natural numbers (minutes since an epoch,
matching the 1-minute resampling grid) and tide heights as rationals.
Fallible steps (network fetch, interpolation, calendar export) return
`Option`/`Except` values mirroring the places where the Python code stores
`None` or where the underlying libraries raise.
-/

namespace TideCal

/-- A tide sample: timestamp (minutes) paired with a height. -/
abbrev Sample := ℕ × ℚ

/-- An emitted interval: (start timestamp, end timestamp). -/
abbrev Interval := ℕ × ℕ

/-- Python truthiness of an optional float threshold: `None` and `0.0` are
falsy, every other value is truthy.  This is exactly how `if self.low:`
evaluates in `check_interval`. -/
def truthy : Option ℚ → Bool
  | none => false
  | some q => decide (q ≠ 0)

/-- Embedding of `TidePredictor.get_intervals.check_interval` (lines 117-125):
`if self.low and self.high: return (v < self.high) and (v > self.low)`,
`elif self.low: return v > self.low`, `elif self.high: return v < self.high`,
`else: return True`. -/
def check_interval (low high : Option ℚ) (v : ℚ) : Bool :=
  if truthy low && truthy high then
    decide (v < high.getD 0) && decide (v > low.getD 0)
  else if truthy low then decide (v > low.getD 0)
  else if truthy high then decide (v < high.getD 0)
  else true

/-- The threshold table as the spec's words read when "set" means "supplied,
including 0.0" (i.e. `isSome`): both set → strictly between; only low set →
`v > low`; only high set → `v < high`; neither → always true.  Written from
the spec for comparison against `check_interval`. -/
def checkSpecTable (low high : Option ℚ) (v : ℚ) : Bool :=
  match low, high with
  | some l, some h => decide (l < v ∧ v < h)
  | some l, none => decide (l < v)
  | none, some h => decide (v < h)
  | none, none => true

/-- Collapse a threshold the way Python truthiness reads it: a supplied
value of `0.0` behaves exactly like an absent threshold. -/
def normThresh : Option ℚ → Option ℚ
  | none => none
  | some q => if q = 0 then none else some q

/-- One step of the `get_intervals` loop body (lines 127-135): state is the
provisional `start` and the accumulated `intervals` list, exactly as the
Python loop mutates them. -/
def loopStep (p : ℚ → Bool) (st : Option ℕ × List Interval) (tv : Sample) :
    Option ℕ × List Interval :=
  if p tv.2 then
    match st.1 with
    | none => (some tv.1, st.2)
    | some s => (some s, st.2)
  else
    match st.1 with
    | none => (none, st.2)
    | some s => (none, st.2 ++ [(s, tv.1)])

/-- Embedding of the loop of `TidePredictor.get_intervals` (lines 114-136):
fold the loop body over the samples starting from `start = None`,
`intervals = []`, and keep the accumulated interval list (a trailing open
interval, held only in the `start` component, is discarded). -/
def get_intervals_loop (p : ℚ → Bool) (ss : List Sample) : List Interval :=
  (ss.foldl (loopStep p) (none, [])).2

/-- The interval-extraction scan as §4.3 of the spec words it: a single
forward scan; on the first predicate-true sample record a provisional start;
on the first subsequent predicate-false sample `t` emit `(start, t)` and
clear the start; a trailing open interval at the end of the series is
dropped.  Written from the spec for comparison against the loop embedding. -/
def scanSpec (p : ℚ → Bool) : List Sample → Option ℕ → List Interval
  | [], _ => []
  | tv :: rest, none =>
      if p tv.2 then scanSpec p rest (some tv.1) else scanSpec p rest none
  | tv :: rest, some s =>
      if p tv.2 then scanSpec p rest (some s)
      else (s, tv.1) :: scanSpec p rest none

theorem scanSpec_nil (p : ℚ → Bool) (st : Option ℕ) : scanSpec p [] st = [] := by
  cases st <;> rfl

theorem scanSpec_cons_none (p : ℚ → Bool) (tv : Sample) (ss : List Sample) :
    scanSpec p (tv :: ss) none =
      if p tv.2 then scanSpec p ss (some tv.1) else scanSpec p ss none := rfl

theorem scanSpec_cons_some (p : ℚ → Bool) (tv : Sample) (ss : List Sample) (s : ℕ) :
    scanSpec p (tv :: ss) (some s) =
      if p tv.2 then scanSpec p ss (some s)
      else (s, tv.1) :: scanSpec p ss none := rfl

theorem foldl_loopStep (p : ℚ → Bool) :
    ∀ (ss : List Sample) (st : Option ℕ) (acc : List Interval),
      (ss.foldl (loopStep p) (st, acc)).2 = acc ++ scanSpec p ss st := by
  intro ss
  induction ss with
  | nil => intro st acc; cases st <;> simp [scanSpec_nil]
  | cons tv rest ih =>
      intro st acc
      by_cases hp : p tv.2 <;> cases st <;>
        simp [List.foldl_cons, loopStep, hp, scanSpec_cons_none, scanSpec_cons_some, ih]

theorem get_intervals_loop_eq (p : ℚ → Bool) (ss : List Sample) :
    get_intervals_loop p ss = scanSpec p ss none := by
  simpa [get_intervals_loop] using foldl_loopStep p ss none []

/-- Error kind of the interpolation step: `unsortedIndex` when the timestamp
index is not strictly increasing (pandas `resample` requires a monotonic
index). -/
inductive InterpError where
  | unsortedIndex
deriving DecidableEq

/-- Successive index gaps `hk = x[1:] - x[:-1]` of the knot timestamps. -/
def gaps : List Sample → List ℚ
  | (x0, _) :: (x1, y1) :: rest => ((x1 : ℚ) - (x0 : ℚ)) :: gaps ((x1, y1) :: rest)
  | _ => []

/-- Successive secant slopes `mk = (y[1:] - y[:-1]) / hk` of the knots. -/
def secants : List Sample → List ℚ
  | (x0, y0) :: (x1, y1) :: rest =>
      ((y1 - y0) / ((x1 : ℚ) - (x0 : ℚ))) :: secants ((x1, y1) :: rest)
  | _ => []

/-- Sign of a rational, as `np.sign`. -/
def sgnQ (q : ℚ) : ℤ := if 0 < q then 1 else if q < 0 then -1 else 0

/-- PCHIP one-sided three-point endpoint derivative with the shape-preserving
clamps (scipy `_edge_case`). -/
def edgeSlope (h0 h1 m0 m1 : ℚ) : ℚ :=
  let d := ((2 * h0 + h1) * m0 - h0 * m1) / (h0 + h1)
  if sgnQ d ≠ sgnQ m0 then 0
  else if sgnQ m0 ≠ sgnQ m1 ∧ 3 * |m0| < |d| then 3 * m0
  else d

/-- Interior PCHIP derivatives: the weighted harmonic mean of neighbouring
secants when they share a sign, zero at local extrema (scipy
`_find_derivatives`). -/
def interiorSlopes : List ℚ → List ℚ → List ℚ
  | h0 :: h1 :: hs, m0 :: m1 :: ms =>
      (if sgnQ m0 ≠ sgnQ m1 ∨ m0 = 0 ∨ m1 = 0 then 0
       else ((2 * h1 + h0) + (h1 + 2 * h0)) /
              ((2 * h1 + h0) / m0 + (h1 + 2 * h0) / m1)) ::
        interiorSlopes (h1 :: hs) (m1 :: ms)
  | _, _ => []

/-- All PCHIP knot derivatives: linear slopes for exactly two knots,
otherwise edge formulas at both ends and harmonic means inside. -/
def pchipSlopes (pts : List Sample) : List ℚ :=
  match gaps pts, secants pts with
  | [_], [m0] => [m0, m0]
  | h0 :: h1 :: _, m0 :: m1 :: _ =>
      let hk := gaps pts
      let mk := secants pts
      edgeSlope h0 h1 m0 m1 ::
        (interiorSlopes hk mk ++
          [edgeSlope (hk.getLastD 0) (hk.dropLast.getLastD 0)
            (mk.getLastD 0) (mk.dropLast.getLastD 0)])
  | _, _ => []

/-- Cubic Hermite basis evaluation on the segment `[x0, x1]` with values
`y0, y1` and derivatives `d0, d1`, at abscissa `t`. -/
def hermval (x0 x1 y0 y1 d0 d1 t : ℚ) : ℚ :=
  let h := x1 - x0
  let s := (t - x0) / h
  y0 * (2 * s ^ 3 - 3 * s ^ 2 + 1) + d0 * h * (s ^ 3 - 2 * s ^ 2 + s) +
    y1 * (-(2 * s ^ 3) + 3 * s ^ 2) + d1 * h * (s ^ 3 - s ^ 2)

/-- Piecewise evaluation of the PCHIP interpolant: locate the first segment
whose right knot is at or past `t` and evaluate its Hermite cubic. -/
def pchipEval : List Sample → List ℚ → ℕ → ℚ
  | (x0, y0) :: (x1, y1) :: rest, ds, t =>
      if t ≤ x1 then
        hermval (x0 : ℚ) (x1 : ℚ) y0 y1 (ds.getD 0 0) (ds.getD 1 0) (t : ℚ)
      else pchipEval ((x1, y1) :: rest) (ds.drop 1) t
  | [(_, y0)], _, _ => y0
  | [], _, _ => 0

/-- The resampled-and-filled frame: an empty frame resamples to an empty
frame (pandas `interpolate` returns a copy); a nonempty frame resamples to
the 1-minute grid spanning `[first, last]` timestamp, with original values at
the knot rows and the `NaN` rows filled by PCHIP evaluation.  For a one-point
frame the grid is the single knot row, which carries its original value — no
`NaN` exists, so `interpolate` is a no-op, and indeed `pchipEval` at the sole
knot returns its stored height. -/
def resample_interpolate (pts : List Sample) : List Sample :=
  match pts with
  | [] => []
  | _ :: _ =>
      (List.range' (pts.headD (0, 0)).1
          ((pts.getLastD (0, 0)).1 - (pts.headD (0, 0)).1 + 1)).map
        fun t => (t, pchipEval pts (pchipSlopes pts) t)

/-- Embedding of `TidePredictor.interpolate_tides` (lines 90-101):
`self.tides[['height']].resample('1T').interpolate(method='pchip')`.
`resample` raises on a non-monotonic index — the `Except.error` branch.
Otherwise the call succeeds for every length: `interpolate` only fills `NaN`
rows, and with fewer than 2 knots the resampled frame has none (empty frames
return early, a single knot row keeps its value), so scipy is never reached
and the frame passes through unchanged. -/
def interpolate_tides (pts : List Sample) : Except InterpError (List Sample) :=
  if List.Pairwise (fun a b : Sample => a.1 < b.1) pts then
    .ok (resample_interpolate pts)
  else .error .unsortedIndex

/-- A station-info record; only the display name is consumed by the
exporter (`self.station_info[0]['name']`). -/
structure StationRec where
  name : String
deriving DecidableEq

/-- State of a `TidePredictor` object: constructor arguments plus the four
pipeline fields that start out as `None`. -/
structure TidePredictor where
  station_id : String
  begin_date : String
  end_date : String
  units : String
  low : Option ℚ
  high : Option ℚ
  tides : Option (List Sample)
  interpolated_tides : Option (List Sample)
  intervals : Option (List Interval)
  station_info : Option (List StationRec)
deriving DecidableEq

/-- Embedding of `TidePredictor.__init__` (lines 36-47). -/
def TidePredictor.init (station_id begin_date end_date units : String)
    (low high : Option ℚ) : TidePredictor :=
  ⟨station_id, begin_date, end_date, units, low, high, none, none, none, none⟩

/-- A remote response: HTTP status code and the decoded prediction list
(the `predictions` array with timestamps and heights already parsed, as
lines 78-85 do). -/
structure Response where
  status : ℕ
  predictions : List Sample
deriving DecidableEq

/-- Embedding of `TidePredictor.get_tide_predictions` (lines 50-87): issue a
single request — consume exactly the head of the pending response list — and
on status 200 store the parsed predictions in `tides`; on any other status
store `None` (the code's failure signal, the spec's `FetchError`).  The
remaining responses are returned untouched: no retry ever happens. -/
def get_tide_predictions (tp : TidePredictor) (net : List Response) :
    TidePredictor × List Response :=
  match net with
  | [] => ({ tp with tides := none }, [])
  | r :: rest =>
      (if r.status = 200 then { tp with tides := some r.predictions }
       else { tp with tides := none }, rest)

/-- Embedding of `TidePredictor.get_intervals` (lines 104-136): run the scan
loop over the interpolated samples with the object's thresholds and store the
result in `intervals`.  Iterating requires `interpolated_tides` to be
populated (`None` would raise a `TypeError`), hence the `Option` result. -/
def get_intervals (tp : TidePredictor) : Option TidePredictor :=
  match tp.interpolated_tides with
  | none => none
  | some ss =>
      some { tp with
              intervals := some (get_intervals_loop (check_interval tp.low tp.high) ss) }

/-- A calendar event: summary text plus start and end, each a timestamp
paired with a fixed timezone offset in hours (`timezone(timedelta(hours=0))`
is offset `0`, i.e. GMT). -/
structure VEvent where
  summary : String
  dtstart : ℕ × ℤ
  dtend : ℕ × ℤ
deriving DecidableEq

/-- Rendering of an optional threshold inside the f-string
`f'{station_name} min {self.low} max {self.high}'`: Python prints `None` for
an absent value and the numeral otherwise (modelled as `num/den`). -/
def fmtOptQ : Option ℚ → String
  | none => "None"
  | some q => toString q.num ++ "/" ++ toString q.den

/-- Embedding of `TidePredictor.create_ical_file` (lines 189-205): one event
per interval, in interval order; the summary embeds the station display name
(`self.station_info[0]['name']` — an empty station list would raise, hence
`Option`) and both thresholds; start and stop are tagged with the zero GMT
offset. -/
def create_ical_file (si : List StationRec) (low high : Option ℚ)
    (ivs : List Interval) : Option (List VEvent) :=
  match si with
  | [] => none
  | s0 :: _ =>
      some (ivs.map fun iv =>
        { summary := s0.name ++ " min " ++ fmtOptQ low ++ " max " ++ fmtOptQ high
          dtstart := (iv.1, 0)
          dtend := (iv.2, 0) })

end TideCal

namespace TideCal

/-- Claim C1 counterexample: with `low = 0.0` supplied and `high` absent, the
spec-table reading ("set" includes 0.0) demands `v > 0`, so at `v = -1` it is
false; but the code's truthiness test treats `0.0` as unset and falls through
to the `else: return True` branch, so `check_interval` returns true. -/
theorem check_interval_zero_cex :
    check_interval (some 0) none (-1) = true ∧
      checkSpecTable (some 0) none (-1) = false := by
  constructor <;> rfl

/-- Claim C1 (amended): `check_interval` evaluates exactly per the spec's
table once "set" is read as Python truthiness — a threshold that was supplied
as `0.0` behaves as if it were absent.  Formally, the code's predicate agrees
with the spec table applied to the thresholds with `some 0` collapsed to
`none`. -/
theorem check_interval_spec (low high : Option ℚ) (v : ℚ) :
    check_interval low high v = checkSpecTable (normThresh low) (normThresh high) v := by
  cases low with
  | none =>
      cases high with
      | none => rfl
      | some h =>
          by_cases hh : h = 0 <;>
            simp [check_interval, checkSpecTable, normThresh, truthy, hh]
  | some l =>
      cases high with
      | none =>
          by_cases hl : l = 0 <;>
            simp [check_interval, checkSpecTable, normThresh, truthy, hl]
      | some h =>
          by_cases hl : l = 0 <;> by_cases hh : h = 0 <;>
            simp [check_interval, checkSpecTable, normThresh, truthy, hl, hh, and_comm]

/-- Claim C2: the interval extractor of `get_intervals` — the Python loop
with its mutable `start` and appended `intervals`, trailing open interval
dropped — emits, for every predicate and every sample series, exactly the
list produced by the single forward scan described in §4.3 of the spec. -/
theorem get_intervals_loop_is_scan (p : ℚ → Bool) (ss : List Sample) :
    get_intervals_loop p ss = scanSpec p ss none :=
  get_intervals_loop_eq p ss

/-- Claim C7: whenever the remote prediction call returns a non-success
status, the fetcher records the failure (`tides = None`, the spec's
`FetchError`, visible to the caller) and leaves every further pending
response untouched — the single best-effort request is never retried. -/
theorem fetch_failure_not_retried (tp : TidePredictor) (r : Response)
    (rest : List Response) (h : r.status ≠ 200) :
    get_tide_predictions tp (r :: rest) = ({ tp with tides := none }, rest) := by
  simp [get_tide_predictions, h]

/-- Witness for C7 at a concrete failing response (HTTP 404). -/
theorem fetch_failure_not_retried_w :
    get_tide_predictions
        (TidePredictor.init "9414290" "20240101" "20240108" "metric" none none)
        [⟨404, []⟩] =
      ({ TidePredictor.init "9414290" "20240101" "20240108" "metric" none none with
          tides := none }, []) :=
  fetch_failure_not_retried _ _ _ (by decide)

theorem interpolate_tides_eq (pts : List Sample)
    (hs : List.Pairwise (fun a b : Sample => a.1 < b.1) pts)
    (hlen : 2 ≤ pts.length) :
    interpolate_tides pts =
      .ok ((List.range' (pts.headD (0, 0)).1
              ((pts.getLastD (0, 0)).1 - (pts.headD (0, 0)).1 + 1)).map
            fun t => (t, pchipEval pts (pchipSlopes pts) t)) := by
  unfold interpolate_tides
  rw [if_pos hs]
  cases pts with
  | nil => simp at hlen
  | cons a rest => rfl

/-- Claim C8 counterexample: a one-point series does not make the
interpolator fail — pandas `interpolate` only fills `NaN` rows and the
resampled one-row frame has none, so the call silently succeeds and returns
the single sample unchanged, never an error. -/
theorem interpolate_one_point_cex :
    interpolate_tides [((0 : ℕ), (5 : ℚ))] = .ok [((0 : ℕ), (5 : ℚ))] ∧
      ∀ err : InterpError, interpolate_tides [((0 : ℕ), (5 : ℚ))] ≠ .error err := by
  have h : interpolate_tides [((0 : ℕ), (5 : ℚ))] = .ok [((0 : ℕ), (5 : ℚ))] := by
    unfold interpolate_tides
    rw [if_pos (by decide)]
    rfl
  refine ⟨h, fun err herr => ?_⟩
  rw [h] at herr
  exact Except.noConfusion herr

/-- Claim C8 (amended): the interpolator does not fail on fewer than 2
points.  For every series with strictly increasing timestamps — of any
length — the call succeeds, and when fewer than 2 points are supplied the
result is the input series unchanged (the resampled frame has no `NaN` to
fill, so interpolation is a no-op). -/
theorem interpolate_short_series (pts : List Sample)
    (hsort : List.Pairwise (fun a b : Sample => a.1 < b.1) pts) :
    ∃ out, interpolate_tides pts = .ok out ∧ (pts.length < 2 → out = pts) := by
  refine ⟨resample_interpolate pts, ?_, ?_⟩
  · unfold interpolate_tides
    rw [if_pos hsort]
  · intro hlen
    match pts with
    | [] => rfl
    | [(x, y)] =>
        simp [resample_interpolate, Nat.sub_self, List.range'_one, pchipEval]
    | a :: b :: r2 => exact absurd (by simpa using hlen) (by omega)

/-- Witness for C8 (amended) at the one-point series `[(0,5)]`, which passes
through the interpolator unchanged. -/
theorem interpolate_short_series_w :
    ∃ out, interpolate_tides [((0 : ℕ), (5 : ℚ))] = .ok out ∧
      ([((0 : ℕ), (5 : ℚ))].length < 2 → out = [((0 : ℕ), (5 : ℚ))]) :=
  interpolate_short_series _ (by decide)

theorem headD_le_of_sorted (pts : List Sample)
    (hs : List.Pairwise (fun a b : Sample => a.1 < b.1) pts) (d : Sample) :
    ∀ xy ∈ pts, (pts.headD d).1 ≤ xy.1 := by
  cases pts with
  | nil => simp
  | cons hd tl =>
      intro xy hxy
      rcases List.mem_cons.mp hxy with rfl | h
      · simp
      · simpa using le_of_lt ((List.pairwise_cons.mp hs).1 xy h)

theorem getLastD_mem_of_ne_nil :
    ∀ (l : List Sample) (d : Sample), l ≠ [] → l.getLastD d ∈ l := by
  intro l
  induction l with
  | nil => simp
  | cons a t ih =>
      intro d _
      cases t with
      | nil => simp [List.getLastD]
      | cons b t2 =>
          rw [List.getLastD_cons]
          exact List.mem_cons_of_mem a (ih b (by simp))

theorem le_getLastD_of_sorted :
    ∀ (pts : List Sample),
      List.Pairwise (fun a b : Sample => a.1 < b.1) pts →
      ∀ (d : Sample), ∀ xy ∈ pts, xy.1 ≤ (pts.getLastD d).1 := by
  intro pts
  induction pts with
  | nil => simp
  | cons hd tl ih =>
      intro hs d xy hxy
      obtain ⟨h1, h2⟩ := List.pairwise_cons.mp hs
      cases tl with
      | nil =>
          rcases List.mem_cons.mp hxy with rfl | h
          · simp [List.getLastD]
          · simp at h
      | cons b t2 =>
          rw [List.getLastD_cons]
          rcases List.mem_cons.mp hxy with rfl | hmem
          · exact le_of_lt (h1 _ (getLastD_mem_of_ne_nil _ xy (by simp)))
          · exact ih h2 hd xy hmem

theorem hermval_left (x0 x1 y0 y1 d0 d1 : ℚ) :
    hermval x0 x1 y0 y1 d0 d1 x0 = y0 := by
  simp [hermval]

theorem hermval_right (x0 x1 y0 y1 d0 d1 : ℚ) (hne : x1 - x0 ≠ 0) :
    hermval x0 x1 y0 y1 d0 d1 x1 = y1 := by
  simp only [hermval]
  rw [div_self hne]
  ring

theorem pchipEval_knot :
    ∀ (pts : List Sample),
      List.Pairwise (fun a b : Sample => a.1 < b.1) pts →
      ∀ (ds : List ℚ) (x : ℕ) (y : ℚ), (x, y) ∈ pts → pchipEval pts ds x = y := by
  intro pts
  induction pts with
  | nil => intro _ ds x y h; simp at h
  | cons hd tl ih =>
      intro hs ds x y hmem
      obtain ⟨hrel, htl⟩ := List.pairwise_cons.mp hs
      obtain ⟨a0, b0⟩ := hd
      cases tl with
      | nil =>
          simp only [List.mem_singleton] at hmem
          rw [← hmem]
          simp [pchipEval]
      | cons hd2 tl2 =>
          obtain ⟨a1, b1⟩ := hd2
          have h01 : a0 < a1 := hrel (a1, b1) (by simp)
          simp only [List.mem_cons, Prod.mk.injEq] at hmem
          rcases hmem with ⟨rfl, rfl⟩ | ⟨rfl, rfl⟩ | hmem3
          · simp only [pchipEval]
            rw [if_pos (le_of_lt h01)]
            exact hermval_left _ _ _ _ _ _
          · simp only [pchipEval]
            rw [if_pos (le_refl _)]
            refine hermval_right _ _ _ _ _ _ ?_
            have hcast : (a0 : ℚ) < (x : ℚ) := by exact_mod_cast h01
            exact sub_ne_zero_of_ne (ne_of_gt hcast)
          · have h1x : a1 < x := (List.pairwise_cons.mp htl).1 (x, y) hmem3
            simp only [pchipEval]
            rw [if_neg (not_le.mpr h1x)]
            exact ih htl (ds.drop 1) x y (List.mem_cons_of_mem _ hmem3)

/-- Claim C4: for every series of at least 2 points with strictly increasing
timestamps, the interpolated series covers exactly the closed range from the
first to the last timestamp at 1-minute spacing, and every original knot is
reproduced exactly (the interpolated height at an original timestamp is the
original height). -/
theorem interpolate_covers_and_preserves (pts : List Sample)
    (hsort : List.Pairwise (fun a b : Sample => a.1 < b.1) pts)
    (hlen : 2 ≤ pts.length) :
    ∃ out, interpolate_tides pts = .ok out ∧
      out.map Prod.fst =
        List.range' (pts.headD (0, 0)).1
          ((pts.getLastD (0, 0)).1 - (pts.headD (0, 0)).1 + 1) ∧
      ∀ xy ∈ pts, xy ∈ out := by
  refine ⟨_, interpolate_tides_eq pts hsort hlen, ?_, ?_⟩
  · simp [List.map_map, Function.comp_def]
  · intro xy hxy
    obtain ⟨x, y⟩ := xy
    have h1 : (pts.headD (0, 0)).1 ≤ x := headD_le_of_sorted pts hsort (0, 0) (x, y) hxy
    have h2 : x ≤ (pts.getLastD (0, 0)).1 := le_getLastD_of_sorted pts hsort (0, 0) (x, y) hxy
    refine List.mem_map.mpr ⟨x, ?_, ?_⟩
    · rw [List.mem_range'_1]
      omega
    · rw [pchipEval_knot pts hsort _ x y hxy]

theorem scanSpec_mem_ts (p : ℚ → Bool) :
    ∀ (L : List Sample) (st : Option ℕ) (s e : ℕ), (s, e) ∈ scanSpec p L st →
      e ∈ L.map Prod.fst ∧ (s ∈ L.map Prod.fst ∨ st = some s) := by
  intro L
  induction L with
  | nil => intro st s e h; rw [scanSpec_nil] at h; simp at h
  | cons tv0 ss ih =>
      intro st s e h
      by_cases hp : p tv0.2 = true
      · cases st with
        | none =>
            rw [scanSpec_cons_none, if_pos hp] at h
            obtain ⟨he, hs⟩ := ih (some tv0.1) s e h
            refine ⟨by simp [he], ?_⟩
            rcases hs with hs | hs
            · exact Or.inl (by simp [hs])
            · injection hs with hs'
              exact Or.inl (by simp [hs'])
        | some s0 =>
            rw [scanSpec_cons_some, if_pos hp] at h
            obtain ⟨he, hs⟩ := ih (some s0) s e h
            refine ⟨by simp [he], ?_⟩
            rcases hs with hs | hs
            · exact Or.inl (by simp [hs])
            · exact Or.inr hs
      · cases st with
        | none =>
            rw [scanSpec_cons_none, if_neg hp] at h
            obtain ⟨he, hs⟩ := ih none s e h
            refine ⟨by simp [he], ?_⟩
            rcases hs with hs | hs
            · exact Or.inl (by simp [hs])
            · exact absurd hs (by simp)
        | some s0 =>
            rw [scanSpec_cons_some, if_neg hp] at h
            rcases List.mem_cons.mp h with heq | h2
            · rw [Prod.mk.injEq] at heq
              obtain ⟨rfl, rfl⟩ := heq
              exact ⟨by simp, Or.inr rfl⟩
            · obtain ⟨he, hs⟩ := ih none s e h2
              refine ⟨by simp [he], ?_⟩
              rcases hs with hs | hs
              · exact Or.inl (by simp [hs])
              · exact absurd hs (by simp)

theorem scanSpec_inv (p : ℚ → Bool) :
    ∀ (L : List Sample),
      List.Pairwise (fun a b : Sample => a.1 < b.1) L →
      ∀ (st : Option ℕ), (∀ s0, st = some s0 → ∀ tv ∈ L, s0 < tv.1) →
      ∀ s e, (s, e) ∈ scanSpec p L st →
        (∀ tv ∈ L, s < tv.1 → tv.1 < e → p tv.2 = true) ∧
        (∀ tv ∈ L, tv.1 = e → p tv.2 = false) ∧
        (∃ tv ∈ L, tv.1 = e ∧ p tv.2 = false) ∧
        (∀ l1 a b l2, L = l1 ++ a :: b :: l2 → b.1 = s → p a.2 = false) ∧
        (st = some s ∨ ∃ tv ∈ L, tv.1 = s ∧ p tv.2 = true) ∧
        (st = some s ∨ (st = none ∧ ∃ y L0, L = (s, y) :: L0) ∨
          (∃ tv ∈ L, tv.1 < s ∧ p tv.2 = false)) := by
  intro L
  induction L with
  | nil => intro _ st _ s e h; rw [scanSpec_nil] at h; simp at h
  | cons tv0 ss ih =>
      intro hsort st hst s e hmem
      obtain ⟨h01, hss⟩ := List.pairwise_cons.mp hsort
      by_cases hp : p tv0.2 = true
      · cases st with
        | none =>
            rw [scanSpec_cons_none, if_pos hp] at hmem
            have hst' : ∀ s0, some tv0.1 = some s0 → ∀ tv ∈ ss, s0 < tv.1 := by
              intro s0 h0 tv htv
              injection h0 with h0'
              exact h0' ▸ h01 tv htv
            obtain ⟨c1, c2, c3, c4, c5, c6⟩ := ih hss (some tv0.1) hst' s e hmem
            refine ⟨?_, ?_, ?_, ?_, ?_, ?_⟩
            · intro tv htv hlt1 hlt2
              rcases List.mem_cons.mp htv with rfl | htv'
              · exact hp
              · exact c1 tv htv' hlt1 hlt2
            · intro tv htv heq
              rcases List.mem_cons.mp htv with rfl | htv'
              · obtain ⟨tv', htv', heq', _⟩ := c3
                exact absurd (h01 tv' htv') (by omega)
              · exact c2 tv htv' heq
            · obtain ⟨tv', htv', heq', hp'⟩ := c3
              exact ⟨tv', List.mem_cons_of_mem _ htv', heq', hp'⟩
            · intro l1 a b l2 hL hb
              cases l1 with
              | nil =>
                  simp only [List.nil_append] at hL
                  injection hL with h1 h2
                  rcases c6 with h6 | h6 | h6
                  · injection h6 with h6'
                    have hbss : b ∈ ss := h2 ▸ List.mem_cons_self _ _
                    exact absurd (h01 b hbss) (by omega)
                  · exact absurd h6.1 (by simp)
                  · obtain ⟨tv', htv', hlt', _⟩ := h6
                    rw [h2] at htv' hss
                    rcases List.mem_cons.mp htv' with rfl | htv''
                    · exact absurd hlt' (by omega)
                    · have := (List.pairwise_cons.mp hss).1 tv' htv''
                      exact absurd this (by omega)
              | cons c l1' =>
                  simp only [List.cons_append] at hL
                  injection hL with h1 h2
                  exact c4 l1' a b l2 h2 hb
            · rcases c5 with h5 | h5
              · injection h5 with h5'
                exact Or.inr ⟨tv0, List.mem_cons_self _ _, h5', hp⟩
              · obtain ⟨tv', htv', h', hp'⟩ := h5
                exact Or.inr ⟨tv', List.mem_cons_of_mem _ htv', h', hp'⟩
            · rcases c6 with h6 | h6 | h6
              · injection h6 with h6'
                refine Or.inr (Or.inl ⟨rfl, tv0.2, ss, ?_⟩)
                rw [← h6', Prod.mk.eta]
              · exact absurd h6.1 (by simp)
              · obtain ⟨tv', htv', hlt', hp'⟩ := h6
                exact Or.inr (Or.inr ⟨tv', List.mem_cons_of_mem _ htv', hlt', hp'⟩)
        | some s0 =>
            rw [scanSpec_cons_some, if_pos hp] at hmem
            have hs0 : ∀ tv ∈ tv0 :: ss, s0 < tv.1 := hst s0 rfl
            have hst' : ∀ s0', some s0 = some s0' → ∀ tv ∈ ss, s0' < tv.1 := by
              intro s0' h' tv htv
              injection h' with h''
              exact h'' ▸ hs0 tv (List.mem_cons_of_mem _ htv)
            obtain ⟨c1, c2, c3, c4, c5, c6⟩ := ih hss (some s0) hst' s e hmem
            refine ⟨?_, ?_, ?_, ?_, ?_, ?_⟩
            · intro tv htv hlt1 hlt2
              rcases List.mem_cons.mp htv with rfl | htv'
              · exact hp
              · exact c1 tv htv' hlt1 hlt2
            · intro tv htv heq
              rcases List.mem_cons.mp htv with rfl | htv'
              · obtain ⟨tv', htv', heq', _⟩ := c3
                exact absurd (h01 tv' htv') (by omega)
              · exact c2 tv htv' heq
            · obtain ⟨tv', htv', heq', hp'⟩ := c3
              exact ⟨tv', List.mem_cons_of_mem _ htv', heq', hp'⟩
            · intro l1 a b l2 hL hb
              cases l1 with
              | nil =>
                  simp only [List.nil_append] at hL
                  injection hL with h1 h2
                  rcases c6 with h6 | h6 | h6
                  · injection h6 with h6'
                    have hbmem : b ∈ tv0 :: ss :=
                      List.mem_cons_of_mem _ (h2 ▸ List.mem_cons_self _ _)
                    exact absurd (hs0 b hbmem) (by omega)
                  · exact absurd h6.1 (by simp)
                  · obtain ⟨tv', htv', hlt', _⟩ := h6
                    rw [h2] at htv' hss
                    rcases List.mem_cons.mp htv' with rfl | htv''
                    · exact absurd hlt' (by omega)
                    · have := (List.pairwise_cons.mp hss).1 tv' htv''
                      exact absurd this (by omega)
              | cons c l1' =>
                  simp only [List.cons_append] at hL
                  injection hL with h1 h2
                  exact c4 l1' a b l2 h2 hb
            · rcases c5 with h5 | h5
              · exact Or.inl h5
              · obtain ⟨tv', htv', h', hp'⟩ := h5
                exact Or.inr ⟨tv', List.mem_cons_of_mem _ htv', h', hp'⟩
            · rcases c6 with h6 | h6 | h6
              · exact Or.inl h6
              · exact absurd h6.1 (by simp)
              · obtain ⟨tv', htv', hlt', hp'⟩ := h6
                exact Or.inr (Or.inr ⟨tv', List.mem_cons_of_mem _ htv', hlt', hp'⟩)
      · have hpf : p tv0.2 = false := by simpa using hp
        cases st with
        | none =>
            rw [scanSpec_cons_none, if_neg hp] at hmem
            obtain ⟨c1, c2, c3, c4, c5, c6⟩ := ih hss none (by simp) s e hmem
            refine ⟨?_, ?_, ?_, ?_, ?_, ?_⟩
            · intro tv htv hlt1 hlt2
              rcases List.mem_cons.mp htv with rfl | htv'
              · rcases c5 with h5 | h5
                · exact absurd h5 (by simp)
                · obtain ⟨tv', htv', h', _⟩ := h5
                  exact absurd (h01 tv' htv') (by omega)
              · exact c1 tv htv' hlt1 hlt2
            · intro tv htv heq
              rcases List.mem_cons.mp htv with rfl | htv'
              · exact hpf
              · exact c2 tv htv' heq
            · obtain ⟨tv', htv', heq', hp'⟩ := c3
              exact ⟨tv', List.mem_cons_of_mem _ htv', heq', hp'⟩
            · intro l1 a b l2 hL hb
              cases l1 with
              | nil =>
                  simp only [List.nil_append] at hL
                  injection hL with h1 h2
                  exact h1 ▸ hpf
              | cons c l1' =>
                  simp only [List.cons_append] at hL
                  injection hL with h1 h2
                  exact c4 l1' a b l2 h2 hb
            · rcases c5 with h5 | h5
              · exact absurd h5 (by simp)
              · obtain ⟨tv', htv', h', hp'⟩ := h5
                exact Or.inr ⟨tv', List.mem_cons_of_mem _ htv', h', hp'⟩
            · rcases c6 with h6 | h6 | h6
              · exact absurd h6 (by simp)
              · obtain ⟨-, y, L0, hL⟩ := h6
                have hsy : (s, y) ∈ ss := hL ▸ List.mem_cons_self _ _
                exact Or.inr (Or.inr ⟨tv0, List.mem_cons_self _ _, h01 (s, y) hsy, hpf⟩)
              · obtain ⟨tv', htv', hlt', hp'⟩ := h6
                exact Or.inr (Or.inr ⟨tv', List.mem_cons_of_mem _ htv', hlt', hp'⟩)
        | some s0 =>
            rw [scanSpec_cons_some, if_neg hp] at hmem
            have hs0 : ∀ tv ∈ tv0 :: ss, s0 < tv.1 := hst s0 rfl
            rcases List.mem_cons.mp hmem with heq | hmem2
            · rw [Prod.mk.injEq] at heq
              obtain ⟨rfl, rfl⟩ := heq
              refine ⟨?_, ?_, ?_, ?_, Or.inl rfl, Or.inl rfl⟩
              · intro tv htv hlt1 hlt2
                rcases List.mem_cons.mp htv with rfl | htv'
                · exact absurd hlt2 (lt_irrefl _)
                · exact absurd (h01 tv htv') (by omega)
              · intro tv htv heq2
                rcases List.mem_cons.mp htv with rfl | htv'
                · exact hpf
                · exact absurd (h01 tv htv') (by omega)
              · exact ⟨tv0, List.mem_cons_self _ _, rfl, hpf⟩
              · intro l1 a b l2 hL hb
                have hbmem : b ∈ tv0 :: ss := by
                  rw [hL]
                  exact List.mem_append_right _
                    (List.mem_cons_of_mem _ (List.mem_cons_self _ _))
                exact absurd (hs0 b hbmem) (by omega)
            · obtain ⟨c1, c2, c3, c4, c5, c6⟩ := ih hss none (by simp) s e hmem2
              refine ⟨?_, ?_, ?_, ?_, ?_, ?_⟩
              · intro tv htv hlt1 hlt2
                rcases List.mem_cons.mp htv with rfl | htv'
                · rcases c5 with h5 | h5
                  · exact absurd h5 (by simp)
                  · obtain ⟨tv', htv', h', _⟩ := h5
                    exact absurd (h01 tv' htv') (by omega)
                · exact c1 tv htv' hlt1 hlt2
              · intro tv htv heq2
                rcases List.mem_cons.mp htv with rfl | htv'
                · exact hpf
                · exact c2 tv htv' heq2
              · obtain ⟨tv', htv', heq', hp'⟩ := c3
                exact ⟨tv', List.mem_cons_of_mem _ htv', heq', hp'⟩
              · intro l1 a b l2 hL hb
                cases l1 with
                | nil =>
                    simp only [List.nil_append] at hL
                    injection hL with h1 h2
                    exact h1 ▸ hpf
                | cons c l1' =>
                    simp only [List.cons_append] at hL
                    injection hL with h1 h2
                    exact c4 l1' a b l2 h2 hb
              · rcases c5 with h5 | h5
                · exact absurd h5 (by simp)
                · obtain ⟨tv', htv', h', hp'⟩ := h5
                  exact Or.inr ⟨tv', List.mem_cons_of_mem _ htv', h', hp'⟩
              · rcases c6 with h6 | h6 | h6
                · exact absurd h6 (by simp)
                · obtain ⟨-, y, L0, hL⟩ := h6
                  have hsy : (s, y) ∈ ss := hL ▸ List.mem_cons_self _ _
                  exact Or.inr (Or.inr ⟨tv0, List.mem_cons_self _ _, h01 (s, y) hsy, hpf⟩)
                · obtain ⟨tv', htv', hlt', hp'⟩ := h6
                  exact Or.inr (Or.inr ⟨tv', List.mem_cons_of_mem _ htv', hlt', hp'⟩)

/-- Witness for C4 at the concrete two-point series `[(0,0), (2,1)]`. -/
theorem interpolate_covers_and_preserves_w :
    ∃ out, interpolate_tides [((0 : ℕ), (0 : ℚ)), (2, 1)] = .ok out ∧
      out.map Prod.fst =
        List.range' ([((0 : ℕ), (0 : ℚ)), (2, 1)].headD (0, 0)).1
          (([((0 : ℕ), (0 : ℚ)), (2, 1)].getLastD (0, 0)).1 -
            ([((0 : ℕ), (0 : ℚ)), (2, 1)].headD (0, 0)).1 + 1) ∧
      ∀ xy ∈ [((0 : ℕ), (0 : ℚ)), (2, 1)], xy ∈ out :=
  interpolate_covers_and_preserves _ (by decide) (by decide)

theorem scanSpec_lt (p : ℚ → Bool) :
    ∀ (L : List Sample),
      List.Pairwise (fun a b : Sample => a.1 < b.1) L →
      ∀ (st : Option ℕ), (∀ s0, st = some s0 → ∀ tv ∈ L, s0 < tv.1) →
      ∀ s e, (s, e) ∈ scanSpec p L st → s < e := by
  intro L
  induction L with
  | nil => intro _ st _ s e h; rw [scanSpec_nil] at h; simp at h
  | cons tv0 ss ih =>
      intro hsort st hst s e hmem
      obtain ⟨h01, hss⟩ := List.pairwise_cons.mp hsort
      by_cases hp : p tv0.2 = true
      · cases st with
        | none =>
            rw [scanSpec_cons_none, if_pos hp] at hmem
            refine ih hss (some tv0.1) ?_ s e hmem
            intro s0 h0 tv htv
            injection h0 with h0'
            exact h0' ▸ h01 tv htv
        | some s0 =>
            rw [scanSpec_cons_some, if_pos hp] at hmem
            refine ih hss (some s0) ?_ s e hmem
            intro s0' h' tv htv
            injection h' with h''
            exact h'' ▸ hst s0 rfl tv (List.mem_cons_of_mem _ htv)
      · cases st with
        | none =>
            rw [scanSpec_cons_none, if_neg hp] at hmem
            exact ih hss none (by simp) s e hmem
        | some s0 =>
            rw [scanSpec_cons_some, if_neg hp] at hmem
            rcases List.mem_cons.mp hmem with heq | hmem2
            · rw [Prod.mk.injEq] at heq
              obtain ⟨rfl, rfl⟩ := heq
              exact hst s rfl tv0 (List.mem_cons_self _ _)
            · exact ih hss none (by simp) s e hmem2

theorem scanSpec_pairwise (p : ℚ → Bool) :
    ∀ (L : List Sample),
      List.Pairwise (fun a b : Sample => a.1 < b.1) L →
      ∀ (st : Option ℕ),
        List.Pairwise (fun i j : Interval => i.2 ≤ j.1) (scanSpec p L st) := by
  intro L
  induction L with
  | nil => intro _ st; rw [scanSpec_nil]; exact List.Pairwise.nil
  | cons tv0 ss ih =>
      intro hsort st
      obtain ⟨h01, hss⟩ := List.pairwise_cons.mp hsort
      by_cases hp : p tv0.2 = true
      · cases st with
        | none => rw [scanSpec_cons_none, if_pos hp]; exact ih hss _
        | some s0 => rw [scanSpec_cons_some, if_pos hp]; exact ih hss _
      · cases st with
        | none => rw [scanSpec_cons_none, if_neg hp]; exact ih hss _
        | some s0 =>
            rw [scanSpec_cons_some, if_neg hp]
            refine List.pairwise_cons.mpr ⟨?_, ih hss none⟩
            intro iv hiv
            obtain ⟨a, b⟩ := iv
            obtain ⟨-, hs⟩ := scanSpec_mem_ts p ss none a b hiv
            rcases hs with hs | hs
            · obtain ⟨tv', htv', heq⟩ := List.mem_map.mp hs
              exact le_of_lt (heq ▸ h01 tv' htv')
            · exact absurd hs (by simp)

theorem scanSpec_all_true (p : ℚ → Bool) :
    ∀ (L : List Sample), (∀ tv ∈ L, p tv.2 = true) →
      ∀ (st : Option ℕ), scanSpec p L st = [] := by
  intro L
  induction L with
  | nil => intro _ st; rw [scanSpec_nil]
  | cons tv0 ss ih =>
      intro h st
      have hp : p tv0.2 = true := h tv0 (List.mem_cons_self _ _)
      have h' : ∀ tv ∈ ss, p tv.2 = true := fun tv htv => h tv (List.mem_cons_of_mem _ htv)
      cases st with
      | none => rw [scanSpec_cons_none, if_pos hp]; exact ih h' _
      | some s0 => rw [scanSpec_cons_some, if_pos hp]; exact ih h' _

/-- Claim C3 counterexample: with `low = 1`, `high` unset, over the samples
`[(0,2), (1,0), (2,2)]` the extractor emits the interval `(0,1)`; the sample
at the end timestamp 1 is followed immediately by the sample `(2,2)`, and the
predicate is true there (a new run opens right after the close), not false as
the claim states. -/
theorem intervals_after_end_cex :
    ∃ iv ∈ get_intervals_loop (check_interval (some 1) none)
        [((0 : ℕ), (2 : ℚ)), (1, 0), (2, 2)],
      ∃ l1 a b l2,
        ([((0 : ℕ), (2 : ℚ)), (1, 0), (2, 2)] : List Sample) = l1 ++ a :: b :: l2 ∧
        a.1 = iv.2 ∧ check_interval (some 1) none b.2 = true :=
  ⟨(0, 1), by decide, [(0, 2)], (1, 0), (2, 2), [], rfl, rfl, by decide⟩

/-- Claim C3 (amended): for every threshold configuration and every emitted
interval over a strictly-increasing sample series, the predicate holds at
every sample strictly inside the interval, is false at the sample immediately
before the interval's start (when one exists), and is false at the interval's
end sample itself (rather than at the sample after the end, which can already
open a new run). -/
theorem intervals_boundary (low high : Option ℚ) (ss : List Sample)
    (hsort : List.Pairwise (fun a b : Sample => a.1 < b.1) ss)
    (s e : ℕ) (hmem : (s, e) ∈ get_intervals_loop (check_interval low high) ss) :
    (∀ tv ∈ ss, s < tv.1 → tv.1 < e → check_interval low high tv.2 = true) ∧
    (∀ tv ∈ ss, tv.1 = e → check_interval low high tv.2 = false) ∧
    (∀ l1 a b l2, ss = l1 ++ a :: b :: l2 → b.1 = s →
      check_interval low high a.2 = false) := by
  rw [get_intervals_loop_eq] at hmem
  obtain ⟨c1, c2, -, c4, -, -⟩ :=
    scanSpec_inv (check_interval low high) ss hsort none (by simp) s e hmem
  exact ⟨c1, c2, c4⟩

/-- Witness for C3 (amended) at `low = 1`, samples `[(0,0), (1,2), (2,0)]`,
whose single emitted interval is `(1,2)`. -/
theorem intervals_boundary_w :
    (∀ tv ∈ ([((0 : ℕ), (0 : ℚ)), (1, 2), (2, 0)] : List Sample),
        1 < tv.1 → tv.1 < 2 → check_interval (some 1) none tv.2 = true) ∧
    (∀ tv ∈ ([((0 : ℕ), (0 : ℚ)), (1, 2), (2, 0)] : List Sample),
        tv.1 = 2 → check_interval (some 1) none tv.2 = false) ∧
    (∀ l1 a b l2,
        ([((0 : ℕ), (0 : ℚ)), (1, 2), (2, 0)] : List Sample) = l1 ++ a :: b :: l2 →
        b.1 = 1 → check_interval (some 1) none a.2 = false) :=
  intervals_boundary (some 1) none _ (by decide) 1 2 (by decide)

/-- Claim C5: over every strictly-increasing sample series and every
threshold configuration, each emitted interval satisfies `start < end`, and
the emitted list is pairwise non-overlapping (`end ≤ next start`) and
strictly increasing in start time. -/
theorem intervals_disjoint_sorted (low high : Option ℚ) (ss : List Sample)
    (hsort : List.Pairwise (fun a b : Sample => a.1 < b.1) ss) :
    (∀ iv ∈ get_intervals_loop (check_interval low high) ss, iv.1 < iv.2) ∧
    List.Pairwise (fun i j : Interval => i.2 ≤ j.1)
      (get_intervals_loop (check_interval low high) ss) ∧
    List.Pairwise (fun i j : Interval => i.1 < j.1)
      (get_intervals_loop (check_interval low high) ss) := by
  rw [get_intervals_loop_eq]
  have hlt : ∀ iv ∈ scanSpec (check_interval low high) ss none, iv.1 < iv.2 := by
    intro iv hiv
    obtain ⟨a, b⟩ := iv
    exact scanSpec_lt (check_interval low high) ss hsort none (by simp) a b hiv
  have hpw := scanSpec_pairwise (check_interval low high) ss hsort none
  refine ⟨hlt, hpw, ?_⟩
  exact List.Pairwise.imp_of_mem (fun ha hb hR => lt_of_lt_of_le (hlt _ ha) hR) hpw

/-- Witness for C5 at `low = 1`, samples `[(0,2), (1,0), (2,2), (3,0)]`,
whose emitted intervals are `[(0,1), (2,3)]`. -/
theorem intervals_disjoint_sorted_w :
    (∀ iv ∈ get_intervals_loop (check_interval (some 1) none)
        [((0 : ℕ), (2 : ℚ)), (1, 0), (2, 2), (3, 0)], iv.1 < iv.2) ∧
    List.Pairwise (fun i j : Interval => i.2 ≤ j.1)
      (get_intervals_loop (check_interval (some 1) none)
        [((0 : ℕ), (2 : ℚ)), (1, 0), (2, 2), (3, 0)]) ∧
    List.Pairwise (fun i j : Interval => i.1 < j.1)
      (get_intervals_loop (check_interval (some 1) none)
        [((0 : ℕ), (2 : ℚ)), (1, 0), (2, 2), (3, 0)]) :=
  intervals_disjoint_sorted (some 1) none _ (by decide)

/-- Claim C6: if the threshold predicate is true at every sample of the
series, the extractor emits zero intervals — the single run stays open to the
end and is dropped. -/
theorem intervals_empty_of_all_true (low high : Option ℚ) (ss : List Sample)
    (h : ∀ tv ∈ ss, check_interval low high tv.2 = true) :
    get_intervals_loop (check_interval low high) ss = [] := by
  rw [get_intervals_loop_eq]
  exact scanSpec_all_true (check_interval low high) ss h none

/-- Witness for C6 at `low = 1`, samples `[(0,5), (1,6)]` (all above the
threshold). -/
theorem intervals_empty_of_all_true_w :
    get_intervals_loop (check_interval (some 1) none)
      [((0 : ℕ), (5 : ℚ)), (1, 6)] = [] :=
  intervals_empty_of_all_true (some 1) none _ (by decide)

/-- Claim C9: for every nonempty station-info list, thresholds and interval
sequence, the exporter produces exactly one VEVENT per interval, in interval
order; each event's start and end are the interval's bounds tagged with the
zero (GMT) offset, and the summary is the station display name followed by
the low and high threshold bounds. -/
theorem create_ical_events (s0 : StationRec) (rest : List StationRec)
    (low high : Option ℚ) (ivs : List Interval) :
    ∃ cal, create_ical_file (s0 :: rest) low high ivs = some cal ∧
      cal.length = ivs.length ∧
      ∀ (i : ℕ) (hi : i < ivs.length) (hc : i < cal.length),
        cal.get ⟨i, hc⟩ =
          { summary := s0.name ++ " min " ++ fmtOptQ low ++ " max " ++ fmtOptQ high
            dtstart := ((ivs.get ⟨i, hi⟩).1, 0)
            dtend := ((ivs.get ⟨i, hi⟩).2, 0) } := by
  refine ⟨_, rfl, by simp, ?_⟩
  intro i hi hc
  simp [List.get_eq_getElem, List.getElem_map]

/-- Witness for C9 at a one-interval calendar for station "Monterey". -/
theorem create_ical_events_w :
    ∃ cal, create_ical_file [{ name := "Monterey" }] (some 1) none
        [((3 : ℕ), (5 : ℕ))] = some cal ∧
      cal.length = [((3 : ℕ), (5 : ℕ))].length ∧
      ∀ (i : ℕ) (hi : i < [((3 : ℕ), (5 : ℕ))].length) (hc : i < cal.length),
        cal.get ⟨i, hc⟩ =
          { summary := ({ name := "Monterey" } : StationRec).name ++ " min " ++
              fmtOptQ (some 1) ++ " max " ++ fmtOptQ none
            dtstart := (([((3 : ℕ), (5 : ℕ))].get ⟨i, hi⟩).1, 0)
            dtend := (([((3 : ℕ), (5 : ℕ))].get ⟨i, hi⟩).2, 0) } :=
  create_ical_events { name := "Monterey" } [] (some 1) none [((3 : ℕ), (5 : ℕ))]

/-- Claim C10: `get_intervals` writes only the `intervals` field — every
other field of the `TidePredictor` state is unchanged — and every endpoint of
every emitted interval is a timestamp occurring in `interpolated_tides`. -/
theorem get_intervals_frame (sid bd ed u : String) (low high : Option ℚ)
    (td : Option (List Sample)) (ss : List Sample) (iv0 : Option (List Interval))
    (si : Option (List StationRec)) :
    ∃ tp', get_intervals ⟨sid, bd, ed, u, low, high, td, some ss, iv0, si⟩ = some tp' ∧
      tp'.station_id = sid ∧ tp'.begin_date = bd ∧ tp'.end_date = ed ∧
      tp'.units = u ∧ tp'.low = low ∧ tp'.high = high ∧ tp'.tides = td ∧
      tp'.interpolated_tides = some ss ∧ tp'.station_info = si ∧
      tp'.intervals = some (get_intervals_loop (check_interval low high) ss) ∧
      ∀ iv ∈ get_intervals_loop (check_interval low high) ss,
        iv.1 ∈ ss.map Prod.fst ∧ iv.2 ∈ ss.map Prod.fst := by
  refine ⟨_, rfl, rfl, rfl, rfl, rfl, rfl, rfl, rfl, rfl, rfl, rfl, ?_⟩
  intro iv hiv
  obtain ⟨a, b⟩ := iv
  rw [get_intervals_loop_eq] at hiv
  obtain ⟨he, hs⟩ := scanSpec_mem_ts (check_interval low high) ss none a b hiv
  rcases hs with hs | hs
  · exact ⟨hs, he⟩
  · exact absurd hs (by simp)

/-- Witness for C10 at a concrete populated state with two interpolated
samples. -/
theorem get_intervals_frame_w :
    ∃ tp', get_intervals ⟨"9414290", "20240101", "20240108", "metric", some 1,
        none, none, some [((0 : ℕ), (2 : ℚ)), (1, 0)], none, none⟩ = some tp' ∧
      tp'.station_id = "9414290" ∧ tp'.begin_date = "20240101" ∧
      tp'.end_date = "20240108" ∧ tp'.units = "metric" ∧ tp'.low = some 1 ∧
      tp'.high = none ∧ tp'.tides = none ∧
      tp'.interpolated_tides = some [((0 : ℕ), (2 : ℚ)), (1, 0)] ∧
      tp'.station_info = none ∧
      tp'.intervals =
        some (get_intervals_loop (check_interval (some 1) none)
          [((0 : ℕ), (2 : ℚ)), (1, 0)]) ∧
      ∀ iv ∈ get_intervals_loop (check_interval (some 1) none)
          [((0 : ℕ), (2 : ℚ)), (1, 0)],
        iv.1 ∈ [((0 : ℕ), (2 : ℚ)), (1, 0)].map Prod.fst ∧
        iv.2 ∈ [((0 : ℕ), (2 : ℚ)), (1, 0)].map Prod.fst :=
  get_intervals_frame "9414290" "20240101" "20240108" "metric" (some 1) none
    none [((0 : ℕ), (2 : ℚ)), (1, 0)] none none

end TideCal
